import Mathlib

/-!
Verification of the BLOOMIN8 E-Ink Canvas Home Assistant integration's
device-communication core, as a shallow embedding of
custom_components/bloomin8_eink_canvas/api_client.py and coordinator.py.

Bytes are modelled as lists of naturals (one per octet, matching the
iso-8859-1 byte/char bijection used by the source); strings as lists of
Char.  Asynchronous stream reads are modelled by an explicit stream state
holding the remaining response bytes plus an adversarial schedule of read
sizes, so theorems can quantify over how the response is split across
partial reads.  Monotonic clock values are modelled as rationals.
-/

namespace EinkCanvas

/-- A raw byte string: one natural number per octet. -/
abbrev Bytes := List Nat

/-- The CR LF line terminator. -/
def crlf : Bytes := [13, 10]

/-- The CR LF CR LF header-block terminator. -/
def hdrDelim : Bytes := [13, 10, 13, 10]

/-- Bool test: pat is an initial segment of b. -/
def leadsWith : Bytes → Bytes → Bool
  | [], _ => true
  | _ :: _, [] => false
  | p :: ps, c :: cs => p == c && leadsWith ps cs

/-- Split b at the first occurrence of sep (Python bytes.split(sep, 1)):
returns the part before and the part after, or none if sep never occurs. -/
def splitFirstB (sep : Bytes) : Bytes → Option (Bytes × Bytes)
  | [] => none
  | c :: cs =>
    if leadsWith sep (c :: cs) then some ([], (c :: cs).drop sep.length)
    else
      match splitFirstB sep cs with
      | some (pre, post) => some (c :: pre, post)
      | none => none

/-- Python (sep in b): does sep occur as a contiguous substring of b. -/
def hasSub (sep : Bytes) (b : Bytes) : Bool :=
  (splitFirstB sep b).isSome

/-- Python bytes.split(sep): split b on every occurrence of sep.
Fuel-bounded; fuel b.length + 1 suffices for every nonempty sep. -/
def splitSepGo (sep : Bytes) : Nat → Bytes → List Bytes
  | 0, b => [b]
  | fuel + 1, b =>
    match splitFirstB sep b with
    | none => [b]
    | some (pre, post) => pre :: splitSepGo sep fuel post

/-- Python bytes.split(sep) for nonempty sep. -/
def splitSep (sep : Bytes) (b : Bytes) : List Bytes :=
  splitSepGo sep (b.length + 1) b

/-- Python whitespace bytes recognised by bytes.strip(). -/
def isSpaceByte (c : Nat) : Bool :=
  c == 32 || c == 9 || c == 10 || c == 13 || c == 11 || c == 12

/-- Python bytes/str.strip() with no argument: remove leading and trailing
whitespace. -/
def stripB (b : Bytes) : Bytes :=
  ((b.dropWhile isSpaceByte).reverse.dropWhile isSpaceByte).reverse

/-- ASCII lower-casing of one byte, as Python str.lower on iso-8859-1 text
restricted to the ASCII letters the device protocol uses. -/
def lowerByte (c : Nat) : Nat :=
  if 65 ≤ c ∧ c ≤ 90 then c + 32 else c

/-- Lower-case a byte string. -/
def lowerB (b : Bytes) : Bytes :=
  b.map lowerByte

/-- Decimal digit test for a byte. -/
def isDigitByte (c : Nat) : Bool :=
  48 ≤ c && c ≤ 57

/-- Value of a decimal digit string (most significant first). -/
def digitsToNat (b : Bytes) : Nat :=
  b.foldl (fun acc c => acc * 10 + (c - 48)) 0

/-- Python int(s) on the strings the device sends: optional sign, then a
nonempty run of decimal digits, with surrounding whitespace stripped.
(Underscore separators accepted by CPython are not modelled; the firmware
never sends them.) -/
def parsePyInt (b : Bytes) : Option Int :=
  let t := stripB b
  match t with
  | 45 :: ds =>
    if ds ≠ [] ∧ ds.all isDigitByte then some (-(digitsToNat ds : Int)) else none
  | 43 :: ds =>
    if ds ≠ [] ∧ ds.all isDigitByte then some (digitsToNat ds : Int) else none
  | ds =>
    if ds ≠ [] ∧ ds.all isDigitByte then some (digitsToNat ds : Int) else none

/-- Hex digit test for a byte. -/
def isHexDigitByte (c : Nat) : Bool :=
  (48 ≤ c && c ≤ 57) || (97 ≤ c && c ≤ 102) || (65 ≤ c && c ≤ 70)

/-- Value of one hex digit byte. -/
def hexDigitVal (c : Nat) : Nat :=
  if 48 ≤ c ∧ c ≤ 57 then c - 48
  else if 97 ≤ c ∧ c ≤ 102 then c - 87
  else c - 55

/-- Python int(s, 16) on chunk-size strings: a nonempty run of hex digits
(the 0x-prefixed and signed forms CPython also accepts never appear in
chunked framing). -/
def parseHexB (b : Bytes) : Option Nat :=
  if b ≠ [] ∧ b.all isHexDigitByte then
    some (b.foldl (fun acc c => acc * 16 + hexDigitVal c) 0)
  else none

/-- Bytes of a Lean string under the iso-8859-1/ASCII identification used
by the source (each char to its code point). -/
def strToBytes (s : String) : Bytes :=
  s.toList.map Char.toNat

/-- Association-list lookup, first binding wins (Python dict lookup for the
insertion-ordered dict built below). -/
def lookupB (m : List (Bytes × Bytes)) (k : Bytes) : Option Bytes :=
  match m with
  | [] => none
  | (k', v) :: t => if k' = k then some v else lookupB t k

/-- Python dict.setdefault: insert the binding only if the key is absent. -/
def setdefaultB (m : List (Bytes × Bytes)) (k v : Bytes) : List (Bytes × Bytes) :=
  if (lookupB m k).isSome then m else m ++ [(k, v)]

/-- One header line of api_client._read_http_response_lenient (lines
1225-1231): skipped when empty or colon-free, otherwise split at the first
colon into a stripped lower-cased key and a stripped value. -/
def parseHeaderLine (line : Bytes) : Option (Bytes × Bytes) :=
  if line = [] then none
  else
    match splitFirstB [58] line with
    | none => none
    | some (k, v) => some (lowerB (stripB k), stripB v)

/-- The header-dict loop of api_client._read_http_response_lenient (lines
1224-1231): fold the lines into a dict keeping the first occurrence of
each name (setdefault). -/
def parseHeaderLines : List Bytes → List (Bytes × Bytes) → List (Bytes × Bytes)
  | [], m => m
  | line :: rest, m =>
    match parseHeaderLine line with
    | none => parseHeaderLines rest m
    | some (k, v) => parseHeaderLines rest (setdefaultB m k v)

/-- The value of the first parsed header line whose (normalised) name is n. -/
def firstHeaderValue (lines : List Bytes) (n : Bytes) : Option Bytes :=
  ((lines.filterMap parseHeaderLine).find? (fun p => p.1 = n)).map (fun p => p.2)

/-- First-some choice on optional byte strings. -/
def orB (a b : Option Bytes) : Option Bytes :=
  match a with
  | some x => some x
  | none => b

/-! ### Raw stream model

The lenient upload path reads the device's response from an asyncio
StreamReader over a connection the request opened with Connection: close,
so the stream holds exactly the response bytes followed by EOF.  How those
bytes are split across reader.read(1024) calls depends on network arrival;
we model that with an adversarial schedule of read sizes.  readline and
readexactly operate on the buffered byte sequence irrespective of arrival
boundaries, matching asyncio semantics. -/

/-- Remaining stream bytes plus the schedule of sizes that successive
read(1024) calls deliver (clamped to 1..1024; empty schedule means full
1024-byte reads). -/
structure RawStream where
  data : Bytes
  sched : List Nat
deriving DecidableEq, Repr

/-- Size of the next read(1024) delivery for a schedule: clamped to 1..1024. -/
def stepSize (sched : List Nat) : Nat :=
  match sched with
  | [] => 1024
  | n :: _ => min 1024 (max 1 n)

/-- One reader.read(1024) call: at EOF returns no bytes, otherwise up to
1024 bytes (at least one) as dictated by the arrival schedule. -/
def readStep (s : RawStream) : Bytes × RawStream :=
  match s.data with
  | [] => ([], s)
  | _ =>
    (s.data.take (stepSize s.sched), ⟨s.data.drop (stepSize s.sched), s.sched.tail⟩)

/-- reader.readline(): consume through the first LF, or through EOF. -/
def readlineBytes : Bytes → Bytes × Bytes
  | [] => ([], [])
  | c :: cs =>
    if c = 10 then ([10], cs)
    else
      let (l, r) := readlineBytes cs
      (c :: l, r)

/-- reader.readline() on a stream. -/
def readline (s : RawStream) : Bytes × RawStream :=
  let (l, r) := readlineBytes s.data
  (l, ⟨r, s.sched⟩)

/-- Failure modes of the lenient reader (each a ConnectionError or stream
exception in the source), plus fuel exhaustion of the bounded model. -/
inductive HErr where
  | headerTooLarge
  | incompleteHeaders
  | emptyResponse
  | badStatusLine
  | badChunkSize
  | incompleteRead
  | outOfFuel
deriving DecidableEq, Repr

/-- reader.readexactly(n): exactly n bytes or an IncompleteReadError. -/
def readexactly (n : Nat) (s : RawStream) : Except HErr (Bytes × RawStream) :=
  if n ≤ s.data.length then Except.ok (s.data.take n, ⟨s.data.drop n, s.sched⟩)
  else Except.error HErr.incompleteRead

/-- The _read_until_delim loop of _read_http_response_lenient (lines
1194-1205): accumulate read(1024) chunks until the stream ends or the
delimiter appears in the buffer, failing if the buffer exceeds the header
limit before the delimiter is seen. -/
def readUntilDelim (limit : Nat) (delim : Bytes) :
    Nat → RawStream → Bytes → Except HErr (Bytes × RawStream)
  | 0, _, _ => Except.error HErr.outOfFuel
  | fuel + 1, s, buf =>
    let (chunk, s') := readStep s
    if chunk = [] then Except.ok (buf, s')
    else
      let buf' := buf ++ chunk
      if hasSub delim buf' then Except.ok (buf', s')
      else if buf'.length > limit then Except.error HErr.headerTooLarge
      else readUntilDelim limit delim fuel s' buf'

/-- Python str.split(" ", 2) as used on the status line: at most two
splits at single spaces. -/
def splitSpace2 (b : Bytes) : List Bytes :=
  match splitFirstB [32] b with
  | none => [b]
  | some (a, r) =>
    match splitFirstB [32] r with
    | none => [a, r]
    | some (c, d) => [a, c, d]

/-- Status-line parsing (lines 1217-1222): int(status_line.split(" ", 2)[1]);
any failure (missing field, non-numeric) is a framing error. -/
def parseStatusLine (line : Bytes) : Option Int :=
  match splitSpace2 line with
  | _ :: p :: _ => parsePyInt p
  | _ => none

/-- The chunked-decoding loop of _read_http_response_lenient (lines
1236-1255): read a hex chunk-size line, stop at EOF or a zero-size chunk
(consuming one trailer line), otherwise read the chunk payload and its
trailing CRLF and continue. -/
def chunkedLoop : Nat → RawStream → Bytes → Except HErr (Bytes × RawStream)
  | 0, _, _ => Except.error HErr.outOfFuel
  | fuel + 1, s, body =>
    let (line, s₁) := readline s
    if line = [] then Except.ok (body, s₁)
    else
      let sizeStr :=
        match splitFirstB [59] (stripB line) with
        | some (a, _) => a
        | none => stripB line
      match parseHexB sizeStr with
      | none => Except.error HErr.badChunkSize
      | some 0 =>
        let (_, s₂) := readline s₁
        Except.ok (body, s₂)
      | some (k + 1) =>
        match readexactly (k + 1) s₁ with
        | Except.error e => Except.error e
        | Except.ok (chunk, s₂) =>
          match readexactly 2 s₂ with
          | Except.error e => Except.error e
          | Except.ok (_, s₃) => chunkedLoop fuel s₃ (body ++ chunk)

/-- The read-until-EOF loop used when neither framing header is present
(lines 1269-1275). -/
def readAllLoop : Nat → RawStream → Bytes → Except HErr (Bytes × RawStream)
  | 0, _, _ => Except.error HErr.outOfFuel
  | fuel + 1, s, body =>
    let (chunk, s') := readStep s
    if chunk = [] then Except.ok (body, s')
    else readAllLoop fuel s' (body ++ chunk)

/-- Python slicing b[:t] for a possibly negative t (int(cl) may be
negative), as in the Content-Length branch's body[:total]. -/
def pySliceTo (b : Bytes) (t : Int) : Bytes :=
  if 0 ≤ t then b.take t.toNat
  else b.take (b.length - min b.length t.natAbs)

/-- api_client._read_http_response_lenient (lines 1181-1275): read the
header block (keeping whatever body bytes were over-read into rest), parse
the status line and the headers (first occurrence wins), then decode the
body by chunked framing, by first-seen Content-Length, or until EOF.  The
header limit is the source default of 64 * 1024; fuel bounds the three
read loops. -/
def readHttpResponseLenient (fuel : Nat) (s : RawStream) :
    Except HErr (Int × List (Bytes × Bytes) × Bytes) :=
  match readUntilDelim (64 * 1024) hdrDelim fuel s [] with
  | Except.error e => Except.error e
  | Except.ok (raw, s₁) =>
    match splitFirstB hdrDelim raw with
    | none => Except.error HErr.incompleteHeaders
    | some (headerPart, rest) =>
      match splitSep crlf headerPart with
      | [] => Except.error HErr.emptyResponse
      | statusLine :: hdrLines =>
        match parseStatusLine statusLine with
        | none => Except.error HErr.badStatusLine
        | some status =>
          let headers := parseHeaderLines hdrLines []
          let te := lowerB ((lookupB headers (strToBytes "transfer-encoding")).getD [])
          if hasSub (strToBytes "chunked") te then
            match chunkedLoop fuel s₁ rest with
            | Except.error e => Except.error e
            | Except.ok (body, _) => Except.ok (status, headers, body)
          else
            match lookupB headers (strToBytes "content-length") with
            | some cl =>
              match parsePyInt cl with
              | some total =>
                if 0 < total - (rest.length : Int) then
                  match readexactly (total - rest.length).toNat s₁ with
                  | Except.error e => Except.error e
                  | Except.ok (extra, _) =>
                    Except.ok (status, headers, pySliceTo (rest ++ extra) total)
                else Except.ok (status, headers, pySliceTo rest total)
              | none =>
                match readAllLoop fuel s₁ rest with
                | Except.error e => Except.error e
                | Except.ok (body, _) => Except.ok (status, headers, body)
            | none =>
              match readAllLoop fuel s₁ rest with
              | Except.error e => Except.error e
              | Except.ok (body, _) => Except.ok (status, headers, body)

/-- Hex digit byte for a value below 16. -/
def hexDigitByte (d : Nat) : Nat :=
  if d < 10 then 48 + d else 87 + d

/-- Big-endian hex digits of n, by fuel-bounded division (fuel n suffices). -/
def natToHexGo : Nat → Nat → Bytes
  | 0, _ => []
  | fuel + 1, n =>
    if n = 0 then []
    else natToHexGo fuel (n / 16) ++ [hexDigitByte (n % 16)]

/-- Lower-case hex rendering of a natural, the chunk-size line of valid
chunked framing. -/
def natToHexB (n : Nat) : Bytes :=
  if n = 0 then [48] else natToHexGo n n

/-- Encode payload with valid chunked framing as a single chunk. -/
def chunkedEncode (payload : Bytes) : Bytes :=
  if payload = [] then [48] ++ crlf ++ crlf
  else natToHexB payload.length ++ crlf ++ payload ++ crlf ++ [48] ++ crlf ++ crlf

/-- Body component of a lenient-reader result. -/
def bodyOfResult (r : Except HErr (Int × List (Bytes × Bytes) × Bytes)) :
    Option Bytes :=
  match r with
  | Except.ok (_, _, b) => some b
  | Except.error _ => none

/-- A well-formed chunked response for the 1-byte payload "A", as the device
delivers it: headers and body arriving together, so the initial read(1024)
buffers body bytes past the header terminator. -/
def c5FailingResponse : Bytes :=
  strToBytes "HTTP/1.1 200 OK" ++ crlf ++ strToBytes "Transfer-Encoding: chunked"
    ++ hdrDelim ++ chunkedEncode (strToBytes "A")

/-! ### Push-based snapshot coordinator (coordinator.py)

The fallback refresh path of EinkCanvasDeviceInfoCoordinator._handle_refresh
(lines 133-159) together with _async_update_data (lines 161-170).  A device
snapshot is the decoded /deviceInfo JSON object, modelled as an ordered
key/value association.  The adaptive-interval adjustment of
_async_update_data touches only update_interval, never the snapshot data,
and is omitted from the coordinator state. -/

/-- A decoded device-info snapshot (JSON object as ordered key/value pairs). -/
abbrev Snapshot := List (List Char × List Char)

/-- Observable coordinator state: current data and the last-update flag. -/
structure CoordState where
  data : Option Snapshot
  lastUpdateSuccess : Bool
deriving DecidableEq, Repr

/-- Outcome of one _async_update_data call. -/
inductive FetchOutcome where
  | ok (d : Snapshot)
  | updateFailed
  | unexpectedErr
deriving DecidableEq, Repr

/-- coordinator._async_update_data: get_device_info(wake=False) returning no
data raises UpdateFailed, otherwise the snapshot is returned. -/
def asyncUpdateData (fetched : Option Snapshot) : FetchOutcome :=
  match fetched with
  | none => FetchOutcome.updateFailed
  | some d => FetchOutcome.ok d

/-- The fallback body of coordinator._handle_refresh (lines 133-159): on
UpdateFailed or an unexpected error, mark the update unsuccessful and leave
data untouched; on success, adopt the new snapshot. -/
def handleRefreshFallback (outcome : FetchOutcome) (st : CoordState) : CoordState :=
  match outcome with
  | FetchOutcome.ok d => { st with data := some d, lastUpdateSuccess := true }
  | FetchOutcome.updateFailed => { st with lastUpdateSuccess := false }
  | FetchOutcome.unexpectedErr => { st with lastUpdateSuccess := false }

/-- One refresh attempt: fetch device info, then handle the outcome. -/
def refreshStep (fetched : Option Snapshot) (st : CoordState) : CoordState :=
  handleRefreshFallback (asyncUpdateData fetched) st

/-- Modelled from the spec: async_set_updated_data of the Home Assistant
DataUpdateCoordinator (an external collaborator, not under src/), through
which callers push a replacement snapshot after successful actions. -/
def pushData (d : Snapshot) (_st : CoordState) : CoordState :=
  { data := some d, lastUpdateSuccess := true }

/-! ### Device client wake, fetch and upload state machines (api_client.py)

Monotonic clock readings are rationals (exact stand-ins for the float
seconds of time.monotonic()).  The BLE connect/write/disconnect sequence
and the post-wake HTTP polling are best-effort and never raise, so the wake
model records only whether a connect was attempted and how the persistent
instance state changed. -/

/-- Constructor-time client configuration (EinkCanvasApiClient.__init__). -/
structure ClientCfg where
  bleAutoWake : Bool
  macAddress : List Char
  bleWakeWaitSeconds : Int
  httpOnlineTimeoutSeconds : Int
deriving DecidableEq, Repr

/-- The wake-related persistent instance state: _last_ble_wake_attempt
(initialised to 0.0). -/
structure WakeState where
  lastBleWakeAttempt : ℚ
deriving DecidableEq, Repr

/-- Environment of one async_ensure_awake call: the monotonic clock at its
two time.monotonic() reads (before and after acquiring the wake lock), the
reachability-probe answers of the fast-path ping and the post-lock ping,
and whether the HA Bluetooth cache resolves the peripheral as
connectable. -/
structure WakeEnv where
  now1 : ℚ
  now2 : ℚ
  reachFast : Bool
  reachLocked : Bool
  deviceFound : Bool
deriving DecidableEq, Repr

/-- Result of async_ensure_awake: whether a BLE connect was attempted, and
the updated instance state. -/
structure WakeResult where
  connectAttempted : Bool
  state : WakeState
deriving DecidableEq, Repr

/-- api_client.async_ensure_awake (lines 245-310): no-op unless BLE
auto-wake is enabled and a MAC is configured; fast-path return when already
reachable; 30-second cooldown checked against _last_ble_wake_attempt both
before and again after acquiring the wake lock (with a fresh reachability
probe in between); only after passing both is the attempt timestamp
recorded and the peripheral resolved and connected. -/
def async_ensure_awake (cfg : ClientCfg) (env : WakeEnv) (s : WakeState) :
    WakeResult :=
  if ¬cfg.bleAutoWake then ⟨false, s⟩
  else if cfg.macAddress = [] then ⟨false, s⟩
  else if env.reachFast then ⟨false, s⟩
  else if env.now1 - s.lastBleWakeAttempt < 30 then ⟨false, s⟩
  else if env.reachLocked then ⟨false, s⟩
  else if env.now2 - s.lastBleWakeAttempt < 30 then ⟨false, s⟩
  else
    let s' : WakeState := ⟨env.now2⟩
    if ¬env.deviceFound then ⟨false, s'⟩
    else ⟨true, s'⟩

/-- Per-call observable effects of get_device_info: how many /deviceInfo
HTTP requests were made and whether the wake coordinator ran. -/
structure FetchTrace where
  deviceInfoRequests : Nat
  wakeInvoked : Bool
deriving DecidableEq, Repr

/-- Environment of one get_device_info call: the wake sub-environment, the
reachability-probe answer on the wake=False path, and the decoded outcome
of the /deviceInfo exchange (none for a non-200 status, undecodable JSON or
a network error — all of which the source logs and maps to None). -/
structure FetchEnv where
  wakeEnv : WakeEnv
  pingOk : Bool
  fetchResult : Option Snapshot

/-- api_client.get_device_info (lines 635-741): with wake=True, run the BLE
wake coordinator and then always attempt the HTTP fetch; with wake=False,
consult the reachability probe first and return no data, without making the
/deviceInfo request, when it reports unreachable. -/
def get_device_info (cfg : ClientCfg) (wake : Bool) (env : FetchEnv)
    (s : WakeState) : Option Snapshot × WakeState × FetchTrace :=
  if wake then
    let r := async_ensure_awake cfg env.wakeEnv s
    (env.fetchResult, r.state, ⟨1, true⟩)
  else if ¬env.pingOk then (none, s, ⟨0, false⟩)
  else (env.fetchResult, s, ⟨1, false⟩)

/-- A Python argument value for get_image_bytes: a str, or a non-string
value together with its truthiness (both non-string cases are rejected by
the guards). -/
inductive PyVal where
  | pstr (s : List Char)
  | nonstr (truthy : Bool)
deriving DecidableEq, Repr

/-- Per-call observable network effects of get_image_bytes: direct
reachability pings, wake-coordinator invocations, and image HTTP
requests. -/
structure ImgTrace where
  pings : Nat
  wakeCalls : Nat
  httpRequests : Nat
deriving DecidableEq, Repr

/-- Environment of one get_image_bytes call. -/
structure ImgEnv where
  wakeEnv : WakeEnv
  pingOk : Bool
  fetchResult : Option Bytes

/-- An argument get_image_bytes rejects before any network activity: a
non-string value, the empty string, or a string not starting with "/". -/
def imageArgRejected (v : PyVal) : Prop :=
  match v with
  | PyVal.nonstr _ => True
  | PyVal.pstr p => p = [] ∨ p.head? ≠ some '/'

/-- api_client.get_image_bytes (lines 190-243): reject empty, non-string or
non-absolute (not starting with "/") paths before any network activity;
then either wake (wake=True) or gate on the reachability probe
(wake=False), and fetch the image bytes. -/
def get_image_bytes (cfg : ClientCfg) (imagePath : PyVal) (wake : Bool)
    (env : ImgEnv) (s : WakeState) : Option Bytes × WakeState × ImgTrace :=
  match imagePath with
  | PyVal.nonstr _ => (none, s, ⟨0, 0, 0⟩)
  | PyVal.pstr p =>
    if p = [] then (none, s, ⟨0, 0, 0⟩)
    else if p.head? ≠ some '/' then (none, s, ⟨0, 0, 0⟩)
    else if wake then
      let r := async_ensure_awake cfg env.wakeEnv s
      (env.fetchResult, r.state, ⟨0, 1, 1⟩)
    else if ¬env.pingOk then (none, s, ⟨1, 0, 0⟩)
    else (env.fetchResult, s, ⟨1, 0, 1⟩)

/-- Outcome of one strict (aiohttp) upload attempt of upload_image.  The
response-JSON path resolution of the 200 branch is abstracted into the
resolved stored path the branch returns. -/
inductive StrictOutcome where
  | okPath (path : List Char)
  | httpFail
  | transient
  | dupCL
  | unexpected
deriving DecidableEq, Repr

/-- Outcome of one _upload_image_lenient_http call: a truthy path, None, a
raised ClientError/TimeoutError/ConnectionError (transient class), or any
other raised exception. -/
inductive LenientOutcome where
  | ok (path : List Char)
  | failNone
  | raiseTransient
  | raiseOther
deriving DecidableEq, Repr

/-- Environment of one loop iteration of upload_image: what the strict
transport would do, and what the lenient transport would do. -/
structure AttemptEnv where
  strict : StrictOutcome
  lenient : LenientOutcome
deriving DecidableEq, Repr

/-- Observable transport activity of one upload_image call. -/
structure UploadTrace where
  strictAttempts : Nat
  lenientCalls : Nat
  sleeps : List Nat
deriving DecidableEq, Repr

/-- Result of upload_image: the returned path (None on failure), the final
value of the sticky _upload_requires_lenient_http flag, and the transport
trace. -/
structure UploadResult where
  result : Option (List Char)
  flag : Bool
  trace : UploadTrace
deriving DecidableEq, Repr

/-- The retry loop of api_client.upload_image (lines 1052-1151).  rem is
the number of loop iterations left (max_retries - attempt).  Per iteration:
if the sticky flag is set, call the lenient transport and return its result
directly (a raised transient error falls to the retry handler); otherwise
attempt the strict transport — 200 returns the resolved path, a non-200 or
an unexpected exception returns None immediately, a transient network error
falls to the retry handler, and a duplicate-Content-Length framing error
sets the sticky flag and immediately tries the lenient transport, returning
its path if truthy and otherwise falling to the retry handler.  The retry
handler sleeps 2^attempt seconds and continues when iterations remain,
else returns None.  The per-attempt async_ensure_awake call is best-effort
and affects neither the flag nor the transport choice, so it is not traced
here. -/
def uploadGo (env : Nat → AttemptEnv) :
    Nat → Nat → Bool → UploadTrace → UploadResult
  | 0, _, flag, tr => ⟨none, flag, tr⟩
  | rem + 1, attempt, flag, tr =>
    let retry : Bool → UploadTrace → UploadResult := fun flag' tr' =>
      match rem with
      | 0 => ⟨none, flag', tr'⟩
      | _ + 1 =>
        uploadGo env rem (attempt + 1) flag'
          { tr' with sleeps := tr'.sleeps ++ [2 ^ attempt] }
    if flag then
      let tr₁ := { tr with lenientCalls := tr.lenientCalls + 1 }
      match (env attempt).lenient with
      | LenientOutcome.ok p => ⟨some p, true, tr₁⟩
      | LenientOutcome.failNone => ⟨none, true, tr₁⟩
      | LenientOutcome.raiseTransient => retry true tr₁
      | LenientOutcome.raiseOther => ⟨none, true, tr₁⟩
    else
      let tr₁ := { tr with strictAttempts := tr.strictAttempts + 1 }
      match (env attempt).strict with
      | StrictOutcome.okPath p => ⟨some p, false, tr₁⟩
      | StrictOutcome.httpFail => ⟨none, false, tr₁⟩
      | StrictOutcome.transient => retry false tr₁
      | StrictOutcome.unexpected => ⟨none, false, tr₁⟩
      | StrictOutcome.dupCL =>
        let tr₂ := { tr₁ with lenientCalls := tr₁.lenientCalls + 1 }
        match (env attempt).lenient with
        | LenientOutcome.ok p => ⟨some p, true, tr₂⟩
        | LenientOutcome.failNone => retry true tr₂
        | LenientOutcome.raiseTransient => retry true tr₂
        | LenientOutcome.raiseOther => retry true tr₂

/-- api_client.upload_image: run the retry loop for max_retries attempts
starting from the instance's current sticky-flag value. -/
def upload_image (env : Nat → AttemptEnv) (maxRetries : Nat) (flag : Bool) :
    UploadResult :=
  uploadGo env maxRetries 0 flag ⟨0, 0, []⟩

/-! ### Filename sanitisation (api_client._sanitize_filename, lines 101-131)

Python strings are sequences of code points, modelled like the byte
strings as lists of naturals.  str.strip() and the regex class \s are
modelled over their ASCII members: any other whitespace code point is not
in the safe character class, so the very next substitution step turns it
into an underscore, which the run-collapsing and edge-stripping steps then
treat exactly as the sub of \s would have. -/

/-- The characters the sanitiser keeps, the class A-Za-z0-9._- . -/
def safeByte (c : Nat) : Bool :=
  (65 ≤ c && c ≤ 90) || (97 ≤ c && c ≤ 122) || (48 ≤ c && c ≤ 57)
    || c == 46 || c == 95 || c == 45

/-- The strip("._-") character set. -/
def stripSetByte (c : Nat) : Bool :=
  c == 46 || c == 95 || c == 45

/-- Python str.strip with a character class: drop matching characters from
both ends. -/
def pyStripOn (p : Nat → Bool) (l : Bytes) : Bytes :=
  ((l.dropWhile p).reverse.dropWhile p).reverse

/-- re.sub(class+, rep): collapse each maximal run of characters of the
class into one replacement character (inRun tracks an open run). -/
def collapseRunsGo (p : Nat → Bool) (rep : Nat) : Bool → Bytes → Bytes
  | _, [] => []
  | inRun, c :: cs =>
    if p c then
      if inRun then collapseRunsGo p rep true cs
      else rep :: collapseRunsGo p rep true cs
    else c :: collapseRunsGo p rep false cs

/-- re.sub of one-or-more repetitions of a class by a single character. -/
def collapseRuns (p : Nat → Bool) (rep : Nat) (l : Bytes) : Bytes :=
  collapseRunsGo p rep false l

/-- Python str.endswith(suf). -/
def endsWithB (suf l : Bytes) : Bool :=
  leadsWith suf.reverse l.reverse

/-- Python rsplit(".", 1) when a dot is present: the parts before and
after the last dot (the first dot of the reversed string). -/
def splitLastDot (l : Bytes) : Option (Bytes × Bytes) :=
  (splitFirstB [46] l.reverse).map (fun q => (q.2.reverse, q.1.reverse))

/-- Decimal digits of a natural (fuel-bounded division; fuel n suffices),
the rendering of the f-string int in the empty-name fallback. -/
def natToDecGo : Nat → Nat → Bytes
  | 0, _ => []
  | fuel + 1, n =>
    if n = 0 then []
    else natToDecGo fuel (n / 10) ++ [48 + n % 10]

/-- Decimal rendering of a natural number. -/
def natToDecB (n : Nat) : Bytes :=
  if n = 0 then [48] else natToDecGo n n

/-- The ".jpg" suffix. -/
def jpgSuffix : Bytes := [46, 106, 112, 103]

/-- The ".jpeg" suffix. -/
def jpegSuffix : Bytes := [46, 106, 112, 101, 103]

/-- The character-cleaning pipeline of _sanitize_filename (lines 108-112):
strip whitespace, replace "/" and "\" by "_", collapse whitespace runs to
"_", replace everything outside A-Za-z0-9._- by "_", collapse "_" runs,
then strip "._-" from both ends. -/
def sanitizeCore (filename : Bytes) : Bytes :=
  let n1 := pyStripOn isSpaceByte filename
  let n2 := n1.map (fun c => if c = 47 then 95 else c)
  let n3 := n2.map (fun c => if c = 92 then 95 else c)
  let n4 := collapseRuns isSpaceByte 95 n3
  let n5 := n4.map (fun c => if safeByte c then c else 95)
  let n6 := collapseRuns (fun c => c == 95) 95 n5
  pyStripOn stripSetByte n6

/-- The empty-name fallback of _sanitize_filename (lines 114-115): an empty
cleaned name becomes "ha_" followed by the current epoch milliseconds,
passed here as a parameter. -/
def sanitizeNamed (millis : Nat) (filename : Bytes) : Bytes :=
  let n7 := sanitizeCore filename
  if n7 = [] then [104, 97, 95] ++ natToDecB millis else n7

/-- The extension enforcement of _sanitize_filename (lines 117-125), tested
on the lower-cased name: ".jpeg" is rewritten to ".jpg"; a ".jpg" (of any
case) is kept as is; otherwise any extension after the last dot is stripped
and ".jpg" appended. -/
def sanitizeExt (n8 : Bytes) : Bytes :=
  let lower := lowerB n8
  if endsWithB jpegSuffix lower then n8.take (n8.length - 5) ++ jpgSuffix
  else if endsWithB jpgSuffix lower then n8
  else
    let base :=
      if n8.contains 46 then
        match splitLastDot n8 with
        | some q => q.1
        | none => n8
      else n8
    base ++ jpgSuffix

/-- The length cap of _sanitize_filename (lines 127-130): over 80
characters, keep at most 75 characters of the stem plus the dot and the
extension.  At this point the name always contains a dot (it ends in a jpg
extension); on the unreachable dot-free input, where Python's tuple
unpacking of rsplit would raise, the name is returned unchanged. -/
def sanitizeCap (n9 : Bytes) : Bytes :=
  if n9.length > 80 then
    match splitLastDot n9 with
    | some q => q.1.take 75 ++ 46 :: q.2
    | none => n9
  else n9

/-- api_client._sanitize_filename (lines 101-131). -/
def sanitize_filename (millis : Nat) (filename : Bytes) : Bytes :=
  sanitizeCap (sanitizeExt (sanitizeNamed millis filename))

theorem lookupB_append_single (m : List (Bytes × Bytes)) (k v n : Bytes) :
    lookupB (m ++ [(k, v)]) n =
      orB (lookupB m n) (if k = n then some v else none) := by
  induction m with
  | nil => simp [lookupB, orB]
  | cons hd t ih =>
    obtain ⟨k', v'⟩ := hd
    by_cases h : k' = n
    · simp [lookupB, h, orB]
    · simp [lookupB, h, ih]

theorem lookupB_setdefaultB (m : List (Bytes × Bytes)) (k v n : Bytes) :
    lookupB (setdefaultB m k v) n =
      orB (lookupB m n) (if k = n then some v else none) := by
  unfold setdefaultB
  by_cases hk : (lookupB m k).isSome
  · simp only [hk, if_true]
    by_cases h : k = n
    · rcases hs : lookupB m n with _ | w
      · rw [h] at hk; rw [hs] at hk; simp at hk
      · simp [hs, orB]
    · rcases hs : lookupB m n with _ | w <;> simp [hs, h, orB]
  · simp only [hk, if_false]
    exact lookupB_append_single m k v n

theorem parseHeaderLines_lookup (lines : List Bytes) (m : List (Bytes × Bytes))
    (n : Bytes) :
    lookupB (parseHeaderLines lines m) n =
      orB (lookupB m n) (firstHeaderValue lines n) := by
  induction lines generalizing m with
  | nil =>
    rcases hs : lookupB m n with _ | w <;>
      simp [parseHeaderLines, firstHeaderValue, hs, orB]
  | cons line rest ih =>
    rcases hl : parseHeaderLine line with _ | ⟨k, v⟩
    · rw [parseHeaderLines, hl, ih]
      simp [firstHeaderValue, hl]
    · rw [parseHeaderLines, hl, ih, lookupB_setdefaultB]
      by_cases hkn : k = n
      · rcases hs : lookupB m n with _ | w
        · simp [firstHeaderValue, hl, List.find?, hkn, hs, orB]
        · simp [hs, orB]
      · rcases hs : lookupB m n with _ | w
        · simp [firstHeaderValue, hl, List.find?, hkn, hs, orB]
        · simp [hs, orB]


theorem leadsWith_append_self (p t : Bytes) : leadsWith p (p ++ t) = true := by
  induction p with
  | nil => rfl
  | cons c cs ih => simp [leadsWith, ih]

theorem leadsWith_length_le (p b : Bytes) (h : leadsWith p b = true) :
    p.length ≤ b.length := by
  induction p generalizing b with
  | nil => simp
  | cons c cs ih =>
    cases b with
    | nil => simp [leadsWith] at h
    | cons d ds =>
      simp only [leadsWith, Bool.and_eq_true] at h
      have := ih ds h.2
      simp only [List.length_cons]
      omega

theorem leadsWith_eq_append (p b : Bytes) (h : leadsWith p b = true) :
    b = p ++ b.drop p.length := by
  induction p generalizing b with
  | nil => simp
  | cons c cs ih =>
    cases b with
    | nil => simp [leadsWith] at h
    | cons d ds =>
      simp only [leadsWith, Bool.and_eq_true, beq_iff_eq] at h
      obtain ⟨h1, h2⟩ := h
      simp only [List.length_cons, List.drop_succ_cons, List.cons_append, h1]
      exact congrArg _ (ih ds h2)

theorem leadsWith_take (sep b : Bytes) (m : Nat) (h : sep.length ≤ m) :
    leadsWith sep (b.take m) = leadsWith sep b := by
  induction sep generalizing b m with
  | nil => rfl
  | cons p ps ih =>
    cases b with
    | nil => simp
    | cons c cs =>
      cases m with
      | zero => simp at h
      | succ m' =>
        simp only [List.take_succ_cons, leadsWith]
        rw [ih cs m' (by simpa using h)]

theorem splitFirstB_short (sep b : Bytes) (h : b.length < sep.length) :
    splitFirstB sep b = none := by
  induction b with
  | nil => rfl
  | cons c cs ih =>
    rw [splitFirstB]
    have hlw : leadsWith sep (c :: cs) = false := by
      by_contra hx
      have := leadsWith_length_le sep (c :: cs) (by
        cases hv : leadsWith sep (c :: cs)
        · exact absurd hv hx
        · rfl)
      omega
    rw [hlw]
    simp only [Bool.false_eq_true, if_false]
    rw [ih (by simp at h ⊢; omega)]

theorem splitFirstB_eq_append (sep b pre post : Bytes)
    (h : splitFirstB sep b = some (pre, post)) : b = pre ++ sep ++ post := by
  induction b generalizing pre post with
  | nil => simp [splitFirstB] at h
  | cons c cs ih =>
    rw [splitFirstB] at h
    cases hlw : leadsWith sep (c :: cs) with
    | true =>
      rw [hlw] at h
      simp only [if_true, Option.some.injEq, Prod.mk.injEq] at h
      obtain ⟨h1, h2⟩ := h
      rw [← h1, ← h2]
      simp only [List.nil_append]
      exact leadsWith_eq_append sep (c :: cs) hlw
    | false =>
      rw [hlw] at h
      simp only [Bool.false_eq_true, if_false] at h
      cases hrec : splitFirstB sep cs with
      | none => rw [hrec] at h; simp at h
      | some pp =>
        obtain ⟨pre', post'⟩ := pp
        rw [hrec] at h
        simp only [Option.some.injEq, Prod.mk.injEq] at h
        obtain ⟨h1, h2⟩ := h
        rw [← h1, ← h2]
        rw [List.cons_append, List.cons_append]
        exact congrArg (c :: ·) (ih pre' post' hrec)

theorem splitFirstB_self_append (sep x : Bytes) (hsep : sep ≠ []) :
    splitFirstB sep (sep ++ x) = some ([], x) := by
  cases sep with
  | nil => exact absurd rfl hsep
  | cons s ss =>
    have h1 : leadsWith (s :: ss) ((s :: ss) ++ x) = true :=
      leadsWith_append_self (s :: ss) x
    rw [show (s :: ss) ++ x = s :: (ss ++ x) from rfl, splitFirstB]
    rw [show s :: (ss ++ x) = (s :: ss) ++ x from rfl, h1]
    simp [List.drop_left]

theorem splitFirstB_take (sep b pre post : Bytes) (hsep : sep ≠ [])
    (h : splitFirstB sep b = some (pre, post)) (m : Nat) :
    splitFirstB sep (b.take m) =
      if pre.length + sep.length ≤ m then
        some (pre, post.take (m - pre.length - sep.length))
      else none := by
  induction b generalizing pre post m with
  | nil => simp [splitFirstB] at h
  | cons c cs ih =>
    rw [splitFirstB] at h
    cases hlw : leadsWith sep (c :: cs) with
    | true =>
      rw [hlw] at h
      simp only [if_true, Option.some.injEq, Prod.mk.injEq] at h
      obtain ⟨h1, h2⟩ := h
      rw [← h1, ← h2]
      have hb : c :: cs = sep ++ (c :: cs).drop sep.length :=
        leadsWith_eq_append sep (c :: cs) hlw
      by_cases hm : sep.length ≤ m
      · rw [if_pos (by simp; omega)]
        conv_lhs => rw [hb]
        rw [List.take_append_eq_append_take,
          List.take_of_length_le (le_of_eq_of_le rfl hm),
          splitFirstB_self_append sep _ hsep]
        simp
      · rw [if_neg (by simp; omega)]
        apply splitFirstB_short
        have : ((c :: cs).take m).length = min m (c :: cs).length := by simp
        omega
    | false =>
      rw [hlw] at h
      simp only [Bool.false_eq_true, if_false] at h
      cases hrec : splitFirstB sep cs with
      | none => rw [hrec] at h; simp at h
      | some pp =>
        obtain ⟨pre', post'⟩ := pp
        rw [hrec] at h
        simp only [Option.some.injEq, Prod.mk.injEq] at h
        obtain ⟨h1, h2⟩ := h
        rw [← h1, ← h2]
        cases m with
        | zero =>
          rw [if_neg (by simp only [List.length_cons]; omega)]
          rfl
        | succ m' =>
          rw [List.take_succ_cons]
          by_cases hms : sep.length ≤ m' + 1
          · rw [splitFirstB]
            rw [show c :: cs.take m' = (c :: cs).take (m' + 1) from rfl,
              leadsWith_take sep (c :: cs) (m' + 1) hms, hlw]
            simp only [Bool.false_eq_true, if_false]
            rw [ih pre' post' hrec m']
            by_cases hc : pre'.length + sep.length ≤ m'
            · rw [if_pos hc, if_pos (by simp only [List.length_cons]; omega)]
              have harith : m' - pre'.length - sep.length =
                  m' + 1 - (c :: pre').length - sep.length := by
                simp only [List.length_cons]
                omega
              rw [harith]
            · rw [if_neg hc, if_neg (by simp only [List.length_cons]; omega)]
          · rw [if_neg (by simp only [List.length_cons]; omega)]
            apply splitFirstB_short
            have : (cs.take m').length = min m' cs.length := by simp
            simp only [List.length_cons]
            omega

theorem hasSub_take_of_splitFirstB (sep b pre post : Bytes) (hsep : sep ≠ [])
    (h : splitFirstB sep b = some (pre, post)) (m : Nat)
    (hm : pre.length + sep.length ≤ m) : hasSub sep (b.take m) = true := by
  rw [hasSub, splitFirstB_take sep b pre post hsep h m, if_pos hm]
  rfl

theorem readStep_nil (sched : List Nat) :
    readStep ⟨[], sched⟩ = ([], ⟨[], sched⟩) := rfl

theorem readStep_cons (d : Bytes) (sched : List Nat) (hne : d ≠ []) :
    readStep ⟨d, sched⟩ =
      (d.take (stepSize sched), ⟨d.drop (stepSize sched), sched.tail⟩) := by
  cases d with
  | nil => exact absurd rfl hne
  | cons c cs => rfl

theorem one_le_stepSize (sched : List Nat) : 1 ≤ stepSize sched := by
  cases sched with
  | nil => decide
  | cons n t =>
    simp only [stepSize]
    omega

/-- The read-until-delimiter loop, on a stream whose full contents contain
the delimiter and whose delimiter-free prefixes fit the header limit,
always succeeds: the result is some prefix of the stream containing the
delimiter, and the stream rests at the matching suffix — for every arrival
schedule. -/
theorem readUntilDelim_ok (limit : Nat) (delim full : Bytes)
    (hdel : hasSub delim full = true)
    (hlim : ∀ m, hasSub delim (full.take m) = false → (full.take m).length ≤ limit) :
    ∀ fuel j sched, full.length - j < fuel →
      hasSub delim (full.take j) = false →
      ∃ m sched', j ≤ m ∧
        readUntilDelim limit delim fuel ⟨full.drop j, sched⟩ (full.take j) =
          Except.ok (full.take m, ⟨full.drop m, sched'⟩) ∧
        hasSub delim (full.take m) = true := by
  intro fuel
  induction fuel with
  | zero => intro j sched h _; omega
  | succ fuel ih =>
    intro j sched hfuel hinv
    by_cases hd : full.drop j = []
    · exfalso
      have hj : full.length ≤ j := by
        have := congrArg List.length hd
        simp at this
        omega
      rw [List.take_of_length_le hj] at hinv
      rw [hinv] at hdel
      exact Bool.false_ne_true hdel
    · have hjlen : j < full.length := by
        by_contra hx
        exact hd (by simp; omega)
      set k := stepSize sched with hk
      have hk1 : 1 ≤ k := one_le_stepSize sched
      rw [readUntilDelim, readStep_cons _ _ hd]
      have hchunk : (full.drop j).take k ≠ [] := by
        rw [Ne, List.take_eq_nil_iff]
        push_neg
        exact ⟨by omega, hd⟩
      simp only [hchunk, if_false]
      have hbuf : full.take j ++ (full.drop j).take k = full.take (j + k) :=
        (List.take_add full j k).symm
      have hdata : (full.drop j).drop k = full.drop (j + k) := by
        rw [List.drop_drop]
      rw [hbuf, hdata]
      by_cases hsub : hasSub delim (full.take (j + k)) = true
      · rw [hsub]
        exact ⟨j + k, sched.tail, by omega, by simp, hsub⟩
      · have hsub' : hasSub delim (full.take (j + k)) = false := by
          cases hv : hasSub delim (full.take (j + k))
          · rfl
          · exact absurd hv hsub
        rw [hsub']
        simp only [Bool.false_eq_true, if_false]
        have hlen : (full.take (j + k)).length ≤ limit := hlim _ hsub'
        rw [if_neg (by omega)]
        obtain ⟨m, sched', hm, heq, hfound⟩ :=
          ih (j + k) sched.tail (by omega) hsub'
        exact ⟨m, sched', by omega, heq, hfound⟩

theorem uploadGo_true_raise_step (env : Nat → AttemptEnv)
    (rem attempt ta tb : Nat) (tc : List Nat)
    (h : (env attempt).lenient = LenientOutcome.raiseTransient) :
    uploadGo env (rem + 1 + 1) attempt true ⟨ta, tb, tc⟩ =
      uploadGo env (rem + 1) (attempt + 1) true
        ⟨ta, tb + 1, tc ++ [2 ^ attempt]⟩ := by
  conv_lhs => rw [uploadGo]
  simp [h]

theorem uploadGo_false_transient_step (env : Nat → AttemptEnv)
    (rem attempt ta tb : Nat) (tc : List Nat)
    (h : (env attempt).strict = StrictOutcome.transient) :
    uploadGo env (rem + 1 + 1) attempt false ⟨ta, tb, tc⟩ =
      uploadGo env (rem + 1) (attempt + 1) false
        ⟨ta + 1, tb, tc ++ [2 ^ attempt]⟩ := by
  conv_lhs => rw [uploadGo]
  simp [h]

theorem uploadGo_flag_true (env : Nat → AttemptEnv) :
    ∀ rem attempt tr, (uploadGo env rem attempt true tr).flag = true ∧
      (uploadGo env rem attempt true tr).trace.strictAttempts =
        tr.strictAttempts := by
  intro rem
  induction rem with
  | zero => intro attempt tr; exact ⟨rfl, rfl⟩
  | succ rem ih =>
    intro attempt tr
    obtain ⟨ta, tb, tc⟩ := tr
    cases h : (env attempt).lenient with
    | ok p => simp [uploadGo, h]
    | failNone => simp [uploadGo, h]
    | raiseOther => simp [uploadGo, h]
    | raiseTransient =>
      cases rem with
      | zero => simp [uploadGo, h]
      | succ rem' =>
        rw [uploadGo_true_raise_step env rem' attempt ta tb tc h]
        exact ⟨(ih (attempt + 1) _).1, (ih (attempt + 1) _).2⟩

theorem uploadGo_dupCL_sets_flag (env : Nat → AttemptEnv)
    (rem attempt : Nat) (tr : UploadTrace)
    (h : (env attempt).strict = StrictOutcome.dupCL) :
    (uploadGo env (rem + 1) attempt false tr).flag = true := by
  obtain ⟨ta, tb, tc⟩ := tr
  have hretry : ∀ rem' a' tr',
      (match (rem' : Nat) with
        | 0 => (⟨none, true, tr'⟩ : UploadResult)
        | _ + 1 => uploadGo env rem' (a' + 1) true
            ⟨tr'.strictAttempts, tr'.lenientCalls, tr'.sleeps ++ [2 ^ a']⟩).flag
        = true := by
    intro rem' a' tr'
    cases rem' with
    | zero => rfl
    | succ r => exact (uploadGo_flag_true env (r + 1) (a' + 1) _).1
  cases hl : (env attempt).lenient with
  | ok p => simp [uploadGo, h, hl]
  | failNone =>
    cases rem with
    | zero => simp [uploadGo, h, hl]
    | succ rem' =>
      conv_lhs => rw [uploadGo]
      simp only [h, hl]
      simp only [Bool.false_eq_true, if_false]
      exact (uploadGo_flag_true env (rem' + 1) (attempt + 1) _).1
  | raiseTransient =>
    cases rem with
    | zero => simp [uploadGo, h, hl]
    | succ rem' =>
      conv_lhs => rw [uploadGo]
      simp only [h, hl]
      simp only [Bool.false_eq_true, if_false]
      exact (uploadGo_flag_true env (rem' + 1) (attempt + 1) _).1
  | raiseOther =>
    cases rem with
    | zero => simp [uploadGo, h, hl]
    | succ rem' =>
      conv_lhs => rw [uploadGo]
      simp only [h, hl]
      simp only [Bool.false_eq_true, if_false]
      exact (uploadGo_flag_true env (rem' + 1) (attempt + 1) _).1

theorem uploadGo_all_transient (env : Nat → AttemptEnv) :
    ∀ rem attempt tr, (∀ i, attempt ≤ i → i < attempt + rem →
      (env i).strict = StrictOutcome.transient) →
    uploadGo env rem attempt false tr =
      ⟨none, false,
        ⟨tr.strictAttempts + rem, tr.lenientCalls,
          tr.sleeps ++ (List.range (rem - 1)).map (fun k => 2 ^ (attempt + k))⟩⟩ := by
  intro rem
  induction rem with
  | zero =>
    intro attempt tr _
    simp [uploadGo]
  | succ rem ih =>
    intro attempt tr henv
    obtain ⟨ta, tb, tc⟩ := tr
    have hatt : (env attempt).strict = StrictOutcome.transient :=
      henv attempt (le_refl _) (by omega)
    cases rem with
    | zero => simp [uploadGo, hatt]
    | succ rem' =>
      rw [uploadGo_false_transient_step env rem' attempt ta tb tc hatt]
      rw [ih (attempt + 1) ⟨ta + 1, tb, tc ++ [2 ^ attempt]⟩
        (fun i h1 h2 => henv i (by omega) (by omega))]
      have hrange : (List.range (rem' + 1)).map (fun k => 2 ^ (attempt + k)) =
          2 ^ attempt :: (List.range rem').map (fun k => 2 ^ (attempt + 1 + k)) := by
        rw [List.range_succ_eq_map, List.map_cons, List.map_map]
        refine congrArg₂ _ (by rw [Nat.add_zero]) ?_
        refine List.map_congr_left (fun k _ => ?_)
        show 2 ^ (attempt + (k + 1)) = 2 ^ (attempt + 1 + k)
        exact congrArg (2 ^ ·) (by omega)
      have hA : ta + 1 + (rem' + 1) = ta + (rem' + 1 + 1) := by omega
      have hC : tc ++ [2 ^ attempt] ++
          (List.range (rem' + 1 - 1)).map (fun k => 2 ^ (attempt + 1 + k)) =
          tc ++ (List.range (rem' + 1 + 1 - 1)).map (fun k => 2 ^ (attempt + k)) := by
        simp only [Nat.add_sub_cancel]
        rw [hrange]
        simp
      rw [hA, hC]

theorem mem_of_mem_dropWhileB (p : Nat → Bool) (l : Bytes) (c : Nat)
    (h : c ∈ l.dropWhile p) : c ∈ l := by
  induction l with
  | nil => simpa using h
  | cons d ds ih =>
    rw [List.dropWhile_cons] at h
    by_cases hp : p d = true
    · rw [if_pos hp] at h
      exact List.mem_cons_of_mem d (ih h)
    · rw [if_neg hp] at h
      exact h

theorem mem_of_mem_pyStripOn (p : Nat → Bool) (l : Bytes) (c : Nat)
    (h : c ∈ pyStripOn p l) : c ∈ l := by
  unfold pyStripOn at h
  rw [List.mem_reverse] at h
  have h1 := mem_of_mem_dropWhileB p _ c h
  rw [List.mem_reverse] at h1
  exact mem_of_mem_dropWhileB p l c h1

theorem mem_of_mem_collapseRunsGo (p : Nat → Bool) (rep : Nat) (c : Nat) :
    ∀ (l : Bytes) (b : Bool), c ∈ collapseRunsGo p rep b l → c = rep ∨ c ∈ l := by
  intro l
  induction l with
  | nil => intro b h; simp [collapseRunsGo] at h
  | cons d ds ih =>
    intro b h
    rw [collapseRunsGo] at h
    by_cases hp : p d = true
    · rw [if_pos hp] at h
      cases b with
      | true =>
        simp only [if_true] at h
        rcases ih true h with h' | h'
        · exact Or.inl h'
        · exact Or.inr (List.mem_cons_of_mem d h')
      | false =>
        simp only [Bool.false_eq_true, if_false] at h
        rcases List.mem_cons.mp h with h' | h'
        · exact Or.inl h'
        · rcases ih true h' with h'' | h''
          · exact Or.inl h''
          · exact Or.inr (List.mem_cons_of_mem d h'')
    · rw [if_neg hp] at h
      rcases List.mem_cons.mp h with h' | h'
      · exact Or.inr (h' ▸ List.mem_cons_self d ds)
      · rcases ih false h' with h'' | h''
        · exact Or.inl h''
        · exact Or.inr (List.mem_cons_of_mem d h'')

theorem mem_of_mem_takeB (l : Bytes) (n : Nat) (c : Nat) (h : c ∈ l.take n) :
    c ∈ l := by
  induction l generalizing n with
  | nil => simpa using h
  | cons d ds ih =>
    cases n with
    | zero => simp at h
    | succ n' =>
      rw [List.take_succ_cons] at h
      rcases List.mem_cons.mp h with h' | h'
      · exact h' ▸ List.mem_cons_self d ds
      · exact List.mem_cons_of_mem d (ih n' h')

theorem natToDecGo_digits :
    ∀ (fuel n c : Nat), c ∈ natToDecGo fuel n → 48 ≤ c ∧ c ≤ 57 := by
  intro fuel
  induction fuel with
  | zero => intro n c h; simp [natToDecGo] at h
  | succ f ih =>
    intro n c h
    rw [natToDecGo] at h
    by_cases hn : n = 0
    · simp [hn] at h
    · simp only [hn, if_false] at h
      rw [List.mem_append] at h
      rcases h with h | h
      · exact ih _ c h
      · simp at h
        have hm : n % 10 < 10 := Nat.mod_lt n (by omega)
        omega

theorem natToDecB_digits (n c : Nat) (h : c ∈ natToDecB n) :
    48 ≤ c ∧ c ≤ 57 := by
  unfold natToDecB at h
  by_cases hn : n = 0
  · rw [if_pos hn] at h
    simp at h
    omega
  · rw [if_neg hn] at h
    exact natToDecGo_digits n n c h

theorem safeByte_of_digit (c : Nat) (h1 : 48 ≤ c) (h2 : c ≤ 57) :
    safeByte c = true := by
  simp [safeByte]
  omega

theorem sanitizeCore_safe (f : Bytes) :
    ∀ c ∈ sanitizeCore f, safeByte c = true := by
  intro c hc
  unfold sanitizeCore at hc
  have h6 := mem_of_mem_pyStripOn _ _ _ hc
  rcases mem_of_mem_collapseRunsGo _ _ _ _ _ h6 with h | h
  · rw [h]; decide
  · rw [List.mem_map] at h
    obtain ⟨d, _, hdc⟩ := h
    by_cases hs : safeByte d = true
    · rw [if_pos hs] at hdc
      rw [← hdc]
      exact hs
    · rw [if_neg hs] at hdc
      rw [← hdc]
      decide

theorem sanitizeNamed_safe (m : Nat) (f : Bytes) :
    ∀ c ∈ sanitizeNamed m f, safeByte c = true := by
  intro c hc
  unfold sanitizeNamed at hc
  by_cases h7 : sanitizeCore f = []
  · rw [if_pos h7] at hc
    rw [List.mem_append] at hc
    rcases hc with hc | hc
    · simp at hc
      rcases hc with rfl | rfl | rfl <;> decide
    · obtain ⟨hd1, hd2⟩ := natToDecB_digits m c hc
      exact safeByte_of_digit c hd1 hd2
  · rw [if_neg h7] at hc
    exact sanitizeCore_safe f c hc

theorem sanitizeNamed_ne (m : Nat) (f : Bytes) : sanitizeNamed m f ≠ [] := by
  unfold sanitizeNamed
  by_cases h7 : sanitizeCore f = []
  · rw [if_pos h7]
    simp
  · rw [if_neg h7]
    exact h7

theorem endsWithB_append (s a : Bytes) : endsWithB s (a ++ s) = true := by
  unfold endsWithB
  rw [List.reverse_append]
  exact leadsWith_append_self s.reverse a.reverse

theorem exists_append_of_endsWithB (s l : Bytes) (h : endsWithB s l = true) :
    ∃ y, l = y ++ s := by
  unfold endsWithB at h
  have h1 := leadsWith_eq_append s.reverse l.reverse h
  refine ⟨(l.reverse.drop s.reverse.length).reverse, ?_⟩
  have h2 := congrArg List.reverse h1
  rw [List.reverse_reverse, List.reverse_append, List.reverse_reverse] at h2
  exact h2

theorem eq_dot_of_lowerByte_eq_dot (c : Nat) (h : lowerByte c = 46) :
    c = 46 := by
  unfold lowerByte at h
  by_cases hu : 65 ≤ c ∧ c ≤ 90
  · rw [if_pos hu] at h
    omega
  · rwa [if_neg hu] at h

theorem splitFirstB_singleton_append (t : Nat) (x y : Bytes) (hx : t ∉ x) :
    splitFirstB [t] (x ++ t :: y) = some (x, y) := by
  induction x with
  | nil =>
    rw [List.nil_append, splitFirstB]
    simp [leadsWith]
  | cons a as ih =>
    have hat : a ≠ t := fun he => hx (he ▸ List.mem_cons_self a as)
    rw [List.cons_append, splitFirstB]
    have hlw : leadsWith [t] (a :: (as ++ t :: y)) = false := by
      simp [leadsWith]
      exact fun he => hat he.symm
    rw [hlw]
    simp only [Bool.false_eq_true, if_false]
    rw [ih (fun hm => hx (List.mem_cons_of_mem a hm))]

theorem splitLastDot_append (st ex : Bytes) (hx : (46 : Nat) ∉ ex) :
    splitLastDot (st ++ 46 :: ex) = some (st, ex) := by
  unfold splitLastDot
  rw [List.reverse_append, List.reverse_cons, List.append_assoc,
    List.singleton_append]
  rw [splitFirstB_singleton_append 46 ex.reverse st.reverse
    (by simpa using hx)]
  simp

theorem splitLastDot_eq (l st ex : Bytes) (h : splitLastDot l = some (st, ex)) :
    l = st ++ 46 :: ex := by
  unfold splitLastDot at h
  cases hs : splitFirstB [46] l.reverse with
  | none => rw [hs] at h; simp at h
  | some q =>
    obtain ⟨a, b⟩ := q
    rw [hs] at h
    simp at h
    obtain ⟨h1, h2⟩ := h
    have h3 := splitFirstB_eq_append [46] l.reverse a b hs
    have h4 := congrArg List.reverse h3
    rw [List.reverse_reverse] at h4
    subst h1
    subst h2
    rw [h4]
    simp [List.reverse_append]

theorem lowerB_jpg : lowerB jpgSuffix = jpgSuffix := by decide

theorem sanitizeExt_spec (n8 : Bytes) (hne : n8 ≠ [])
    (hsafe : ∀ c ∈ n8, safeByte c = true) :
    sanitizeExt n8 ≠ [] ∧ (∀ c ∈ sanitizeExt n8, safeByte c = true) ∧
      endsWithB jpgSuffix (lowerB (sanitizeExt n8)) = true := by
  have hjpg : ∀ c ∈ jpgSuffix, safeByte c = true := by decide
  have happ : ∀ (a : Bytes), (∀ c ∈ a, safeByte c = true) →
      ((a ++ jpgSuffix ≠ []) ∧ (∀ c ∈ a ++ jpgSuffix, safeByte c = true) ∧
        endsWithB jpgSuffix (lowerB (a ++ jpgSuffix)) = true) := by
    intro a ha
    refine ⟨by simp [jpgSuffix], ?_, ?_⟩
    · intro c hc
      rcases List.mem_append.mp hc with hc | hc
      · exact ha c hc
      · exact hjpg c hc
    · rw [lowerB, List.map_append]
      rw [show List.map lowerByte jpgSuffix = jpgSuffix from lowerB_jpg]
      exact endsWithB_append jpgSuffix _
  rw [sanitizeExt]
  by_cases h1 : endsWithB jpegSuffix (lowerB n8) = true
  · rw [if_pos h1]
    exact happ _ (fun c hc => hsafe c (mem_of_mem_takeB _ _ _ hc))
  · rw [if_neg h1]
    by_cases h2 : endsWithB jpgSuffix (lowerB n8) = true
    · rw [if_pos h2]
      exact ⟨hne, hsafe, h2⟩
    · rw [if_neg h2]
      refine happ _ ?_
      intro c hc
      by_cases hdot : n8.contains 46 = true
      · rw [if_pos hdot] at hc
        cases hsp : splitLastDot n8 with
        | none =>
          rw [hsp] at hc
          exact hsafe c hc
        | some q =>
          rw [hsp] at hc
          obtain ⟨st, ex⟩ := q
          have := splitLastDot_eq n8 st ex hsp
          exact hsafe c (this ▸ List.mem_append_left _ hc)
      · rw [if_neg hdot] at hc
        exact hsafe c hc

theorem sanitizeCap_spec (n9 : Bytes)
    (hsafe : ∀ c ∈ n9, safeByte c = true)
    (hends : endsWithB jpgSuffix (lowerB n9) = true) :
    sanitizeCap n9 ≠ [] ∧ (∀ c ∈ sanitizeCap n9, safeByte c = true) ∧
      endsWithB jpgSuffix (lowerB (sanitizeCap n9)) = true ∧
      (sanitizeCap n9).length ≤ 80 := by
  obtain ⟨y, hy⟩ := exists_append_of_endsWithB _ _ hends
  have hlen9 : n9.length = y.length + 4 := by
    have hl := congrArg List.length hy
    simp only [lowerB, List.length_map, List.length_append] at hl
    rw [hl]
    rfl
  have hne9 : n9 ≠ [] := by
    intro he
    rw [he] at hlen9
    simp at hlen9
  rw [sanitizeCap]
  by_cases hbig : n9.length > 80
  swap
  · rw [if_neg hbig]
    exact ⟨hne9, hsafe, hends, by omega⟩
  · rw [if_pos hbig]
    have hdrop4 : (n9.drop y.length).length = 4 := by
      rw [List.length_drop]
      omega
    have hmap4 : lowerB (n9.drop y.length) = jpgSuffix := by
      rw [lowerB, List.map_drop]
      rw [show List.map lowerByte n9 = lowerB n9 from rfl, hy, List.drop_left]
    obtain ⟨d1, t, hs4h, ht3⟩ :
        ∃ d1 t, n9.drop y.length = d1 :: t ∧ t.length = 3 := by
      cases hdd : n9.drop y.length with
      | nil => rw [hdd] at hdrop4; simp at hdrop4
      | cons a t =>
        refine ⟨a, t, rfl, ?_⟩
        rw [hdd] at hdrop4
        simpa using hdrop4
    obtain ⟨d2, d3, d4, ht⟩ := List.length_eq_three.mp ht3
    have hs4 : n9.drop y.length = [d1, d2, d3, d4] := by rw [hs4h, ht]
    rw [hs4] at hmap4
    simp only [lowerB, List.map_cons, List.map_nil, jpgSuffix,
      List.cons.injEq, and_true] at hmap4
    obtain ⟨hm1, hm2, hm3, hm4⟩ := hmap4
    have hl46 : lowerByte 46 = 46 := by decide
    have hd1 : d1 = 46 := eq_dot_of_lowerByte_eq_dot d1 hm1
    have hnd2 : d2 ≠ 46 := by
      intro he
      rw [he, hl46] at hm2
      omega
    have hnd3 : d3 ≠ 46 := by
      intro he
      rw [he, hl46] at hm3
      omega
    have hnd4 : d4 ≠ 46 := by
      intro he
      rw [he, hl46] at hm4
      omega
    have hn9eq : n9 = n9.take y.length ++ 46 :: [d2, d3, d4] := by
      conv_lhs => rw [← List.take_append_drop y.length n9]
      rw [hs4, hd1]
    have hnot : (46 : Nat) ∉ [d2, d3, d4] := by
      intro hm
      rcases List.mem_cons.mp hm with h | hm2
      · exact hnd2 h.symm
      rcases List.mem_cons.mp hm2 with h | hm3
      · exact hnd3 h.symm
      rcases List.mem_cons.mp hm3 with h | hm4
      · exact hnd4 h.symm
      · simp at hm4
    have hsplit : splitLastDot n9 = some (n9.take y.length, [d2, d3, d4]) := by
      conv_lhs => rw [hn9eq]
      exact splitLastDot_append _ _ hnot
    simp only [hsplit]
    have hmemd : ∀ c', c' ∈ (46 : Nat) :: [d2, d3, d4] → c' ∈ n9 := by
      intro c' hc'
      rw [hn9eq]
      exact List.mem_append_right _ hc'
    refine ⟨by simp, ?_, ?_, ?_⟩
    · intro c hc
      rcases List.mem_append.mp hc with hc | hc
      · exact hsafe c (mem_of_mem_takeB _ _ _ (mem_of_mem_takeB _ _ _ hc))
      · exact hsafe c (hmemd c hc)
    · rw [lowerB, List.map_append]
      have hmr : List.map lowerByte ((46 : Nat) :: [d2, d3, d4]) = jpgSuffix := by
        simp [hl46, hm2, hm3, hm4, jpgSuffix]
      rw [hmr]
      exact endsWithB_append jpgSuffix _
    · have h75 : (((n9.take y.length).take 75)).length ≤ 75 := by simp
      have hlen' : (((n9.take y.length).take 75) ++ (46 : Nat) :: [d2, d3, d4]).length =
          ((n9.take y.length).take 75).length + 4 := by simp
      omega

end EinkCanvas

namespace EinkCanvas

/-- Claim C2: for every header block containing the same header name more
than once (case-insensitively) with different values, the lenient HTTP
reader's header map gives that name the value of the first occurrence, and
parsing the duplicate does not raise (parseHeaderLines is total). -/
theorem c2_duplicate_header_keeps_first
    (lines : List Bytes) (n v1 v2 : Bytes)
    (hfirst : firstHeaderValue lines n = some v1)
    (hdup : (n, v2) ∈ lines.filterMap parseHeaderLine)
    (hne : v2 ≠ v1) :
    lookupB (parseHeaderLines lines []) n = some v1 := by
  rw [parseHeaderLines_lookup]
  simp [lookupB, orB, hfirst]

/-- Witness for C2 at a concrete duplicated Content-Length header block. -/
theorem c2_duplicate_header_keeps_first_witness :
    lookupB
      (parseHeaderLines
        [strToBytes "Content-Length: 5", strToBytes "CONTENT-LENGTH: 7"] [])
      (strToBytes "content-length") = some (strToBytes "5") :=
  c2_duplicate_header_keeps_first
    [strToBytes "Content-Length: 5", strToBytes "CONTENT-LENGTH: 7"]
    (strToBytes "content-length") (strToBytes "5") (strToBytes "7")
    (by decide) (by decide) (by decide)

/-- Claim C6: for every response carrying a single correct Content-Length
header (and no chunked transfer-encoding), the lenient reader returns
exactly the response's body bytes — in particular a body whose length
equals the declared Content-Length — for every way the response bytes are
split across partial stream reads. -/
theorem c6_content_length_exact
    (H B statusLine clv : Bytes) (hdrLines : List Bytes) (status : Int)
    (hfirst : splitFirstB hdrDelim (H ++ hdrDelim ++ B) = some (H, B))
    (hlines : splitSep crlf H = statusLine :: hdrLines)
    (hstatus : parseStatusLine statusLine = some status)
    (hte : hasSub (strToBytes "chunked")
      (lowerB ((lookupB (parseHeaderLines hdrLines [])
        (strToBytes "transfer-encoding")).getD [])) = false)
    (hcl : lookupB (parseHeaderLines hdrLines []) (strToBytes "content-length")
      = some clv)
    (hclv : parsePyInt clv = some (B.length : Int))
    (hlim : H.length + 3 ≤ 64 * 1024)
    (sched : List Nat) :
    readHttpResponseLenient ((H ++ hdrDelim ++ B).length + 1)
        ⟨H ++ hdrDelim ++ B, sched⟩ =
      Except.ok (status, parseHeaderLines hdrLines [], B) := by
  set R := H ++ hdrDelim ++ B with hR
  have hdne : hdrDelim ≠ [] := by simp [hdrDelim]
  have hd4 : hdrDelim.length = 4 := rfl
  have hdel : hasSub hdrDelim R = true := by rw [hasSub, hfirst]; rfl
  have hlimP : ∀ m, hasSub hdrDelim (R.take m) = false →
      (R.take m).length ≤ 64 * 1024 := by
    intro m hm
    by_cases hc : H.length + hdrDelim.length ≤ m
    · rw [hasSub_take_of_splitFirstB hdrDelim R H B hdne hfirst m hc] at hm
      exact absurd hm (by simp)
    · have h1 : (R.take m).length ≤ m := by
        rw [List.length_take]
        omega
      omega
  obtain ⟨m, sched', hm0, heq, hfound⟩ :=
    readUntilDelim_ok (64 * 1024) hdrDelim R hdel hlimP (R.length + 1) 0 sched
      (by omega) (by rw [List.take_zero]; rfl)
  rw [List.drop_zero, List.take_zero] at heq
  have hsplit_take := splitFirstB_take hdrDelim R H B hdne hfirst m
  have hm4 : H.length + hdrDelim.length ≤ m := by
    by_contra hx
    rw [if_neg hx] at hsplit_take
    rw [hasSub, hsplit_take] at hfound
    exact Bool.false_ne_true hfound
  rw [if_pos hm4] at hsplit_take
  set x := m - H.length - hdrDelim.length with hxdef
  have hdropR : R.drop m = B.drop x := by
    rw [hR, List.append_assoc, List.drop_append_eq_append_drop,
      List.drop_append_eq_append_drop]
    rw [List.drop_eq_nil_of_le (by omega), List.drop_eq_nil_of_le (by simp [hd4]; omega)]
    simp only [List.nil_append]
  have hslice : pySliceTo B (B.length : Int) = B := by
    rw [pySliceTo, if_pos (by positivity), Int.toNat_natCast]
    exact List.take_of_length_le (le_refl _)
  rw [readHttpResponseLenient, heq]
  simp only [hsplit_take, hlines, hstatus, hte, Bool.false_eq_true, if_false,
    hcl, hclv]
  by_cases hxB : B.length ≤ x
  · have hrest : B.take x = B := List.take_of_length_le hxB
    rw [hrest, if_neg (by omega), hslice]
  · push_neg at hxB
    have hlen_take : (B.take x).length = x := by
      rw [List.length_take]
      omega
    have hlt : (0 : Int) < (B.length : Int) - ((B.take x).length : Int) := by
      rw [hlen_take]
      omega
    rw [if_pos hlt]
    have hnat : ((B.length : Int) - ((B.take x).length : Int)).toNat =
        B.length - x := by
      rw [hlen_take]
      omega
    rw [hdropR, hnat]
    have hre : readexactly (B.length - x) ⟨B.drop x, sched'⟩ =
        Except.ok (B.drop x, ⟨[], sched'⟩) := by
      simp [readexactly, List.take_of_length_le, List.drop_eq_nil_of_le]
    simp only [hre]
    rw [List.take_append_drop, hslice]

/-- Witness for C6 at a concrete Content-Length response split into reads
of 7, 3 and then full-size bytes. -/
theorem c6_content_length_exact_witness :
    readHttpResponseLenient
        ((strToBytes "HTTP/1.1 200 OK" ++ crlf ++ strToBytes "Content-Length: 5"
          ++ hdrDelim ++ strToBytes "hello").length + 1)
        ⟨strToBytes "HTTP/1.1 200 OK" ++ crlf ++ strToBytes "Content-Length: 5"
          ++ hdrDelim ++ strToBytes "hello", [7, 3]⟩ =
      Except.ok (200, parseHeaderLines [strToBytes "Content-Length: 5"] [],
        strToBytes "hello") :=
  c6_content_length_exact
    (strToBytes "HTTP/1.1 200 OK" ++ crlf ++ strToBytes "Content-Length: 5")
    (strToBytes "hello") (strToBytes "HTTP/1.1 200 OK") (strToBytes "5")
    [strToBytes "Content-Length: 5"] 200
    (by decide) (by decide) (by decide) (by decide) (by decide) (by decide)
    (by decide) [7, 3]

/-- Claim C5 (code bug): when a chunked response arrives with headers and
body buffered by the same read — the normal case for this device, which
sends the whole response at once — the lenient reader returns the still
chunked-framed bytes instead of the decoded payload: the over-read rest of
the initial header read is kept verbatim while the chunked decoder starts
from the stream position after it.  The decode is correct only when reads
happen to stop exactly at the header terminator (third conjunct). -/
theorem c5_chunked_roundtrip_code_bug :
    bodyOfResult (readHttpResponseLenient 200 ⟨c5FailingResponse, []⟩) =
        some (chunkedEncode (strToBytes "A")) ∧
      chunkedEncode (strToBytes "A") ≠ strToBytes "A" ∧
      bodyOfResult (readHttpResponseLenient 200 ⟨c5FailingResponse, [47]⟩) =
        some (strToBytes "A") :=
  ⟨by decide, by decide, by decide⟩

/-- Claim C4: a refresh whose device-info fetch yields no data leaves the
coordinator's snapshot unchanged (and only marks the update unsuccessful);
a successful fetch or an explicit push replaces it. -/
theorem c4_failed_refresh_never_erases (st : CoordState) (d : Snapshot) :
    (refreshStep none st).data = st.data ∧
      (refreshStep none st).lastUpdateSuccess = false ∧
      (refreshStep (some d) st).data = some d ∧
      (pushData d st).data = some d :=
  ⟨rfl, rfl, rfl, rfl⟩

/-- Claim C1: get_device_info with wake=False returns None and makes zero
/deviceInfo requests whenever the reachability probe reports unreachable;
with wake=True, it runs the BLE wake coordinator and then attempts the HTTP
fetch exactly once, regardless of the probe. -/
theorem c1_reachability_gating (cfg : ClientCfg) (env : FetchEnv)
    (s : WakeState) (hping : env.pingOk = false) :
    get_device_info cfg false env s = (none, s, ⟨0, false⟩) ∧
      (get_device_info cfg true env s).2.2 = ⟨1, true⟩ := by
  constructor
  · simp [get_device_info, hping]
  · rfl

/-- Witness for C1 at a concrete unreachable-device environment. -/
theorem c1_reachability_gating_witness :
    get_device_info ⟨false, [], 10, 30⟩ false
        ⟨⟨0, 0, false, false, false⟩, false, none⟩ ⟨0⟩ =
      (none, ⟨0⟩, ⟨0, false⟩) ∧
      (get_device_info ⟨false, [], 10, 30⟩ true
        ⟨⟨0, 0, false, false, false⟩, false, none⟩ ⟨0⟩).2.2 = ⟨1, true⟩ :=
  c1_reachability_gating ⟨false, [], 10, 30⟩
    ⟨⟨0, 0, false, false, false⟩, false, none⟩ ⟨0⟩ rfl

/-- Claim C7: with the device unreachable, a first wake attempt past the
cooldown performs a BLE connect and records its timestamp; any second
attempt whose clock readings (both the pre-lock and post-lock cooldown
checks) fall within 30 seconds of that timestamp performs no connect and
leaves the state unchanged; a third attempt at least 30 seconds after the
recorded attempt connects again. -/
theorem c7_wake_cooldown (cfg : ClientCfg) (s0 : WakeState) (e1 e2 e3 : WakeEnv)
    (haw : cfg.bleAutoWake = true) (hmac : cfg.macAddress ≠ [])
    (h1f : e1.reachFast = false) (h1l : e1.reachLocked = false)
    (h1c1 : 30 ≤ e1.now1 - s0.lastBleWakeAttempt)
    (h1c2 : 30 ≤ e1.now2 - s0.lastBleWakeAttempt)
    (h1d : e1.deviceFound = true)
    (h2c1 : e2.now1 - e1.now2 < 30) (h2c2 : e2.now2 - e1.now2 < 30)
    (h3f : e3.reachFast = false) (h3l : e3.reachLocked = false)
    (h3c1 : 30 ≤ e3.now1 - e1.now2) (h3c2 : 30 ≤ e3.now2 - e1.now2)
    (h3d : e3.deviceFound = true) :
    (async_ensure_awake cfg e1 s0).connectAttempted = true ∧
      (async_ensure_awake cfg e2
        (async_ensure_awake cfg e1 s0).state).connectAttempted = false ∧
      (async_ensure_awake cfg e2 (async_ensure_awake cfg e1 s0).state).state =
        (async_ensure_awake cfg e1 s0).state ∧
      (async_ensure_awake cfg e3
        (async_ensure_awake cfg e2
          (async_ensure_awake cfg e1 s0).state).state).connectAttempted = true := by
  have hr1 : async_ensure_awake cfg e1 s0 = ⟨true, ⟨e1.now2⟩⟩ := by
    rw [async_ensure_awake]
    rw [if_neg (by simp [haw]), if_neg hmac, if_neg (by simp [h1f]),
      if_neg (not_lt.mpr h1c1), if_neg (by simp [h1l]),
      if_neg (not_lt.mpr h1c2), if_neg (by simp [h1d])]
  have hr2 : async_ensure_awake cfg e2 ⟨e1.now2⟩ = ⟨false, ⟨e1.now2⟩⟩ := by
    rw [async_ensure_awake]
    rw [if_neg (by simp [haw]), if_neg hmac]
    by_cases h2f : e2.reachFast = true
    · rw [if_pos h2f]
    · rw [if_neg h2f, if_pos h2c1]
  have hr3 : async_ensure_awake cfg e3 ⟨e1.now2⟩ = ⟨true, ⟨e3.now2⟩⟩ := by
    rw [async_ensure_awake]
    rw [if_neg (by simp [haw]), if_neg hmac, if_neg (by simp [h3f]),
      if_neg (not_lt.mpr h3c1), if_neg (by simp [h3l]),
      if_neg (not_lt.mpr h3c2), if_neg (by simp [h3d])]
  have k1 : (async_ensure_awake cfg e1 s0).state = ⟨e1.now2⟩ := by rw [hr1]
  refine ⟨by rw [hr1], by rw [k1, hr2], by rw [k1, hr2], ?_⟩
  rw [k1, hr2]
  show (async_ensure_awake cfg e3 (⟨e1.now2⟩ : WakeState)).connectAttempted = true
  rw [hr3]

/-- Witness for C7 at concrete rational clock readings 100, 101 (first
attempt), 120, 121 (second, within cooldown) and 140, 141 (third). -/
theorem c7_wake_cooldown_witness :
    (async_ensure_awake ⟨true, ['a'], 10, 30⟩ ⟨100, 101, false, false, true⟩
      ⟨0⟩).connectAttempted = true ∧
      (async_ensure_awake ⟨true, ['a'], 10, 30⟩ ⟨120, 121, false, false, true⟩
        (async_ensure_awake ⟨true, ['a'], 10, 30⟩ ⟨100, 101, false, false, true⟩
          ⟨0⟩).state).connectAttempted = false ∧
      (async_ensure_awake ⟨true, ['a'], 10, 30⟩ ⟨120, 121, false, false, true⟩
        (async_ensure_awake ⟨true, ['a'], 10, 30⟩ ⟨100, 101, false, false, true⟩
          ⟨0⟩).state).state =
        (async_ensure_awake ⟨true, ['a'], 10, 30⟩ ⟨100, 101, false, false, true⟩
          ⟨0⟩).state ∧
      (async_ensure_awake ⟨true, ['a'], 10, 30⟩ ⟨140, 141, false, false, true⟩
        (async_ensure_awake ⟨true, ['a'], 10, 30⟩ ⟨120, 121, false, false, true⟩
          (async_ensure_awake ⟨true, ['a'], 10, 30⟩ ⟨100, 101, false, false, true⟩
            ⟨0⟩).state).state).connectAttempted = true :=
  c7_wake_cooldown ⟨true, ['a'], 10, 30⟩ ⟨0⟩
    ⟨100, 101, false, false, true⟩ ⟨120, 121, false, false, true⟩
    ⟨140, 141, false, false, true⟩
    rfl (by simp) rfl rfl (by norm_num) (by norm_num) rfl
    (by norm_num) (by norm_num) rfl rfl (by norm_num) (by norm_num) rfl

/-- Claim C3: once an upload has observed the duplicate-Content-Length
defect the sticky flag is set (first conjunct), and with the flag set every
upload_image call keeps it set, performs zero strict aiohttp attempts, and
uploads via the lenient path only (second and third conjuncts). -/
theorem c3_sticky_lenient_fallback (env envDefect : Nat → AttemptEnv)
    (n m : Nat) (hdefect : (envDefect 0).strict = StrictOutcome.dupCL) :
    (upload_image envDefect (m + 1) false).flag = true ∧
      (upload_image env n true).flag = true ∧
      (upload_image env n true).trace.strictAttempts = 0 :=
  ⟨uploadGo_dupCL_sets_flag envDefect m 0 ⟨0, 0, []⟩ hdefect,
    (uploadGo_flag_true env n 0 ⟨0, 0, []⟩).1,
    (uploadGo_flag_true env n 0 ⟨0, 0, []⟩).2⟩

/-- Witness for C3: a defect on the first attempt with three retries, and
three flagged uploads that never touch the strict transport. -/
theorem c3_sticky_lenient_fallback_witness :
    (upload_image (fun _ => ⟨StrictOutcome.dupCL, LenientOutcome.failNone⟩)
      3 false).flag = true ∧
      (upload_image (fun _ => ⟨StrictOutcome.transient, LenientOutcome.ok ['p']⟩)
        3 true).flag = true ∧
      (upload_image (fun _ => ⟨StrictOutcome.transient, LenientOutcome.ok ['p']⟩)
        3 true).trace.strictAttempts = 0 :=
  c3_sticky_lenient_fallback
    (fun _ => ⟨StrictOutcome.transient, LenientOutcome.ok ['p']⟩)
    (fun _ => ⟨StrictOutcome.dupCL, LenientOutcome.failNone⟩) 3 2 rfl

/-- Claim C8: an upload_image call whose attempts all fail with transient
network errors performs exactly max_retries strict attempts with backoff
sleeps of 2^attempt seconds between consecutive attempts, and after
exhausting them returns None (the model is a total function, so no
exception reaches the caller). -/
theorem c8_transient_retry_backoff (env : Nat → AttemptEnv) (n : Nat)
    (hn : 1 ≤ n)
    (henv : ∀ i, i < n → (env i).strict = StrictOutcome.transient) :
    upload_image env n false =
      ⟨none, false, ⟨n, 0, (List.range (n - 1)).map (fun k => 2 ^ k)⟩⟩ := by
  rw [upload_image,
    uploadGo_all_transient env n 0 ⟨0, 0, []⟩ (fun i _ h2 => henv i (by omega))]
  simp only [Nat.zero_add, List.nil_append]

/-- Witness for C8 at the default max_retries of 3: three strict attempts,
sleeps of 1 and 2 seconds, result None. -/
theorem c8_transient_retry_backoff_witness :
    upload_image (fun _ => ⟨StrictOutcome.transient, LenientOutcome.failNone⟩)
      3 false =
      ⟨none, false, ⟨3, 0, (List.range (3 - 1)).map (fun k => 2 ^ k)⟩⟩ :=
  c8_transient_retry_backoff
    (fun _ => ⟨StrictOutcome.transient, LenientOutcome.failNone⟩) 3
    (by omega) (fun i _ => rfl)

/-- Claim C10: get_image_bytes returns None for an empty, non-string or
non-absolute image path, with zero reachability pings, zero wake-coordinator
invocations and zero HTTP requests. -/
theorem c10_invalid_path_no_network (cfg : ClientCfg) (v : PyVal)
    (wake : Bool) (env : ImgEnv) (s : WakeState) (h : imageArgRejected v) :
    get_image_bytes cfg v wake env s = (none, s, ⟨0, 0, 0⟩) := by
  match v with
  | PyVal.nonstr b => rfl
  | PyVal.pstr p =>
    have h' : p = [] ∨ p.head? ≠ some '/' := h
    rcases h' with h' | h'
    · simp [get_image_bytes, h']
    · by_cases hp : p = []
      · simp [get_image_bytes, hp]
      · simp [get_image_bytes, hp, h']

/-- Claim C9 counterexample: _sanitize_filename("photo.JPG") returns
"photo.JPG" unchanged — the extension test is made on the lower-cased copy
only — so the result does not end with the literal ".jpg" as the claim
states. -/
theorem c9_sanitize_filename_counterexample :
    sanitize_filename 0 (strToBytes "photo.JPG") = strToBytes "photo.JPG" ∧
      endsWithB (strToBytes ".jpg")
        (sanitize_filename 0 (strToBytes "photo.JPG")) = false :=
  ⟨by decide, by decide⟩

/-- Claim C9 (amended): for every input string and every epoch-milliseconds
value, _sanitize_filename returns a non-empty name of at most 80 characters
drawn from A-Za-z0-9._- that ends with ".jpg" case-insensitively (its
lower-casing ends with ".jpg"). -/
theorem c9_sanitize_filename_amended (millis : Nat) (filename : Bytes) :
    sanitize_filename millis filename ≠ [] ∧
      (∀ c ∈ sanitize_filename millis filename, safeByte c = true) ∧
      endsWithB jpgSuffix (lowerB (sanitize_filename millis filename)) = true ∧
      (sanitize_filename millis filename).length ≤ 80 := by
  have h8 := sanitizeNamed_safe millis filename
  have h8ne := sanitizeNamed_ne millis filename
  obtain ⟨h9ne, h9safe, h9ends⟩ := sanitizeExt_spec _ h8ne h8
  exact sanitizeCap_spec _ h9safe h9ends

/-- Witness for C10 at the empty image path. -/
theorem c10_invalid_path_no_network_witness :
    get_image_bytes ⟨false, [], 10, 30⟩ (PyVal.pstr []) false
        ⟨⟨0, 0, false, false, false⟩, false, none⟩ ⟨0⟩ =
      (none, ⟨0⟩, ⟨0, 0, 0⟩) :=
  c10_invalid_path_no_network ⟨false, [], 10, 30⟩ (PyVal.pstr []) false
    ⟨⟨0, 0, false, false, false⟩, false, none⟩ ⟨0⟩ (Or.inl rfl)

end EinkCanvas
